import Mathlib

/-!
# Verification of the Emergency-Room Triage System (src/Triage.c)

Shallow embedding of the C program: a binary min-heap of `Patient` records
backed by an array, a bounded log of treated patients, and a `TriageSystem`
issuing monotonically increasing patient identifiers.

The heap's backing array is modelled as the `List` of its `size` live cells
(the C code never reads a cell at an index `≥ size`, and writes fresh data at
index `size` before growing); C `int` fields are modelled as `Int`.
-/

set_option autoImplicit false

/-- Mirrors the C struct `Patient` (`name`, `priority_level`, `patient_id`).
A lower `priority_level` means higher priority. -/
structure Patient where
  name : String
  priority_level : Int
  patient_id : Int
deriving DecidableEq

/-- Default record used only to totalise reads; the C code never reads a cell
beyond the current size, so its value is irrelevant everywhere it appears. -/
def dummyPatient : Patient := { name := "", priority_level := 0, patient_id := 0 }

/-- The Min-Heap: `patients` holds exactly the `size` live entries of the C
array (so `size = patients.length`); `capacity` is the allocated capacity. -/
structure MinHeap where
  patients : List Patient
  capacity : Nat
deriving DecidableEq

/-- The dynamic array logging treated patients (`TreatedLog` in the C code). -/
structure TreatedLog where
  patients : List Patient
  capacity : Nat
deriving DecidableEq

/-- The main `TriageSystem` struct: waiting list, treated log, next id. -/
structure TriageSystem where
  waiting_list : MinHeap
  treated_log : TreatedLog
  next_patient_id : Int
deriving DecidableEq

/-- Read of `patients[i]` (total; out-of-range reads never happen in the code). -/
def getP (l : List Patient) (i : Nat) : Patient := l.getD i dummyPatient

/-- The priority stored at index `i`: `patients[i].priority_level`. -/
def prioAt (l : List Patient) (i : Nat) : Int := (getP l i).priority_level

/-- C `swap(&patients[i], &patients[j])`. -/
def swapList (l : List Patient) (i j : Nat) : List Patient :=
  (l.set i (getP l j)).set j (getP l i)

/-- `create_heap`: a fresh heap with `size = 0` and the given capacity. -/
def create_heap (capacity : Nat) : MinHeap :=
  { patients := [], capacity := capacity }

/-- C `heapify_up`: bubble the element at `index` towards the root while it is
strictly smaller than its parent at `(index - 1) / 2`. -/
def heapify_up (l : List Patient) (index : Nat) : List Patient :=
  if h : 0 < index ∧ prioAt l index < prioAt l ((index - 1) / 2) then
    heapify_up (swapList l index ((index - 1) / 2)) ((index - 1) / 2)
  else l
termination_by index
decreasing_by
  omega

@[simp]
theorem swapList_length (l : List Patient) (i j : Nat) :
    (swapList l i j).length = l.length := by
  simp [swapList]

/-- The index C `heapify_down` selects as `smallest`: the node itself or the
child with strictly smaller priority (left child checked first, then right
against the current `smallest`). -/
def downTarget (l : List Patient) (index : Nat) : Nat :=
  if 2 * index + 1 < l.length ∧ prioAt l (2 * index + 1) < prioAt l index then
    if 2 * index + 2 < l.length ∧ prioAt l (2 * index + 2) < prioAt l (2 * index + 1) then
      2 * index + 2
    else 2 * index + 1
  else
    if 2 * index + 2 < l.length ∧ prioAt l (2 * index + 2) < prioAt l index then
      2 * index + 2
    else index

theorem downTarget_lt (l : List Patient) (i : Nat) (h : downTarget l i ≠ i) :
    i < downTarget l i ∧ downTarget l i < l.length := by
  unfold downTarget at *
  split_ifs at * <;> omega

/-- C `heapify_down`: if some child is strictly smaller, swap with the chosen
`smallest` child and continue from there. -/
def heapify_down (l : List Patient) (index : Nat) : List Patient :=
  if h : downTarget l index ≠ index then
    heapify_down (swapList l index (downTarget l index)) (downTarget l index)
  else l
termination_by l.length - index
decreasing_by
  simp only [swapList_length]
  have := downTarget_lt l index h
  omega

/-- C `insert_patient_to_heap`. The `Bool` component records whether the error
branch ran (the C code prints "Error: Waiting list is full." and returns
without modifying the heap); on success the patient is appended at index
`size` and bubbled up. -/
def insert_patient_to_heap (heap : MinHeap) (patient : Patient) : MinHeap × Bool :=
  if heap.patients.length = heap.capacity then
    (heap, true)
  else
    ({ heap with
        patients := heapify_up (heap.patients ++ [patient]) heap.patients.length },
      false)

/-- C `extract_min`. On an empty heap it returns the sentinel
`{"", -1, -1}` and leaves the heap untouched; on a singleton it returns the
root and empties the heap; otherwise it saves the root, moves the last element
to index 0, shrinks the size by one and bubbles down from the root. -/
def extract_min (heap : MinHeap) : Patient × MinHeap :=
  if heap.patients.length = 0 then
    ({ name := "", priority_level := -1, patient_id := -1 }, heap)
  else if heap.patients.length = 1 then
    (getP heap.patients 0, { heap with patients := [] })
  else
    let l := heap.patients
    let moved := (l.set 0 (getP l (l.length - 1))).take (l.length - 1)
    (getP l 0, { heap with patients := heapify_down moved 0 })

/-- C `create_triage_system`: empty heap and empty log, both with the given
capacity, and the id counter starting at 1. -/
def create_triage_system (initial_capacity : Nat) : TriageSystem :=
  { waiting_list := create_heap initial_capacity
    treated_log := { patients := [], capacity := initial_capacity }
    next_patient_id := 1 }

/-- C `add_patient`: build the record with the current `next_patient_id`,
post-increment the counter (unconditionally), and insert into the heap. -/
def add_patient (sys : TriageSystem) (name : String) (priority : Int) : TriageSystem :=
  let new_patient : Patient :=
    { name := name, priority_level := priority, patient_id := sys.next_patient_id }
  { sys with
      waiting_list := (insert_patient_to_heap sys.waiting_list new_patient).1
      next_patient_id := sys.next_patient_id + 1 }

/-- C `treat_next_patient`: on an empty waiting list do nothing; otherwise
extract the root and append it to the log when the log has room (when the log
is full the C code only prints a warning and the extraction stands). -/
def treat_next_patient (sys : TriageSystem) : TriageSystem :=
  if sys.waiting_list.patients.length = 0 then sys
  else if sys.treated_log.patients.length < sys.treated_log.capacity then
    { sys with
        waiting_list := (extract_min sys.waiting_list).2
        treated_log :=
          { sys.treated_log with
              patients := sys.treated_log.patients ++ [(extract_min sys.waiting_list).1] } }
  else
    { sys with waiting_list := (extract_min sys.waiting_list).2 }

/-- C `view_treated_log` prints the log entries at indices `0 .. size-1` in
order; this is exactly the list of live log entries. -/
def view_treated_log (sys : TriageSystem) : List Patient := sys.treated_log.patients

/-- The heap-order invariant in the child form the specification states it:
whenever a child index is inside the current size, the parent's priority is
less than or equal to the child's. -/
def IsHeap (l : List Patient) : Prop :=
  ∀ i : Nat,
    (2 * i + 1 < l.length → prioAt l i ≤ prioAt l (2 * i + 1)) ∧
    (2 * i + 2 < l.length → prioAt l i ≤ prioAt l (2 * i + 2))

/-- The same invariant in parent form: every non-root node inside the size is
at least its parent. -/
def IsHeapParent (l : List Patient) : Prop :=
  ∀ j : Nat, 0 < j → j < l.length → prioAt l ((j - 1) / 2) ≤ prioAt l j

/-! ## Basic facts about `getP`, `prioAt` and `swapList` -/

theorem getP_eq_getElem (l : List Patient) (i : Nat) (h : i < l.length) :
    getP l i = l[i] := List.getD_eq_getElem l dummyPatient h

theorem getP_append_left (l l' : List Patient) (i : Nat) (h : i < l.length) :
    getP (l ++ l') i = getP l i := by
  rw [getP_eq_getElem _ _ (by simp; omega), getP_eq_getElem _ _ h,
    List.getElem_append_left]

theorem getP_append_last (l : List Patient) (p : Patient) :
    getP (l ++ [p]) l.length = p := by
  rw [getP_eq_getElem _ _ (by simp)]
  simp

theorem prioAt_append_left (l l' : List Patient) (i : Nat) (h : i < l.length) :
    prioAt (l ++ l') i = prioAt l i := by
  rw [prioAt, prioAt, getP_append_left l l' i h]

theorem getP_take (l : List Patient) (n i : Nat) (h : i < n) (h' : i < l.length) :
    getP (l.take n) i = getP l i := by
  rw [getP_eq_getElem _ _ (by simp; omega), getP_eq_getElem _ _ h',
    List.getElem_take]

theorem getP_set_self (l : List Patient) (i : Nat) (p : Patient) (h : i < l.length) :
    getP (l.set i p) i = p := by
  rw [getP_eq_getElem _ _ (by simpa), List.getElem_set_self]

theorem getP_set_ne (l : List Patient) (i m : Nat) (p : Patient) (h : i ≠ m) :
    getP (l.set i p) m = getP l m := by
  by_cases hm : m < l.length
  · rw [getP_eq_getElem _ _ (by simpa), getP_eq_getElem _ _ hm, List.getElem_set_ne h]
  · rw [getP, getP, List.getD_eq_default _ _ (by simp; omega),
      List.getD_eq_default _ _ (by omega)]

theorem getP_swapList_fst (l : List Patient) (i j : Nat) (hi : i < l.length) :
    getP (swapList l i j) i = getP l j := by
  unfold swapList
  by_cases hij : i = j
  · subst hij
    rw [getP_set_self _ _ _ (by simpa)]
  · rw [getP_set_ne _ _ _ _ (Ne.symm hij), getP_set_self _ _ _ hi]

theorem getP_swapList_snd (l : List Patient) (i j : Nat) (hj : j < l.length) :
    getP (swapList l i j) j = getP l i := by
  unfold swapList
  rw [getP_set_self _ _ _ (by simpa)]

theorem getP_swapList_other (l : List Patient) (i j m : Nat)
    (hmi : m ≠ i) (hmj : m ≠ j) : getP (swapList l i j) m = getP l m := by
  unfold swapList
  rw [getP_set_ne _ _ _ _ (Ne.symm hmj), getP_set_ne _ _ _ _ (Ne.symm hmi)]

theorem getP_cons_zero (a : Patient) (t : List Patient) : getP (a :: t) 0 = a := rfl

theorem getP_cons_succ (a : Patient) (t : List Patient) (n : Nat) :
    getP (a :: t) (n + 1) = getP t n := rfl

theorem swapList_self (l : List Patient) (i : Nat) (hi : i < l.length) :
    swapList l i i = l := by
  unfold swapList
  rw [List.set_set, getP_eq_getElem _ _ hi]
  apply List.ext_getElem
  · simp
  · intro n h1 h2
    by_cases hn : i = n
    · subst hn; rw [List.getElem_set_self]
    · rw [List.getElem_set_ne hn]

theorem swapList_symm (l : List Patient) (i j : Nat) (hij : i ≠ j) :
    swapList l i j = swapList l j i := by
  unfold swapList
  rw [List.set_comm _ _ _ hij]

/-- Replacing the element at an in-range index and pulling the old value to the
front is a permutation of pushing the new value to the front. -/
theorem set_out_perm (t : List Patient) (m : Nat) (a : Patient) (hm : m < t.length) :
    (getP t m :: t.set m a).Perm (a :: t) := by
  induction t generalizing m with
  | nil => simp at hm
  | cons x s ih =>
    cases m with
    | zero =>
      rw [getP_cons_zero, List.set_cons_zero]
      exact List.Perm.swap a x s
    | succ k =>
      rw [getP_cons_succ, List.set_cons_succ]
      have hk : k < s.length := by simpa using hm
      exact ((List.Perm.swap x (getP s k) (s.set k a)).trans
        ((ih k hk).cons x)).trans (List.Perm.swap a x s)

theorem swapList_cons_succ (a : Patient) (t : List Patient) (i j : Nat) :
    swapList (a :: t) (i + 1) (j + 1) = a :: swapList t i j := by
  unfold swapList
  rw [getP_cons_succ, getP_cons_succ, List.set_cons_succ, List.set_cons_succ]

theorem swapList_perm (l : List Patient) (i j : Nat)
    (hi : i < l.length) (hj : j < l.length) : (swapList l i j).Perm l := by
  induction l generalizing i j with
  | nil => simp at hi
  | cons a t ih =>
    match i, j with
    | 0, 0 => rw [swapList_self _ _ hi]
    | 0, j + 1 =>
      have hjt : j < t.length := by simpa using hj
      unfold swapList
      rw [getP_cons_succ, getP_cons_zero, List.set_cons_zero, List.set_cons_succ]
      exact set_out_perm t j a hjt
    | i + 1, 0 =>
      have hit : i < t.length := by simpa using hi
      rw [swapList_symm _ _ _ (by omega)]
      unfold swapList
      rw [getP_cons_succ, getP_cons_zero, List.set_cons_zero, List.set_cons_succ]
      exact set_out_perm t i a hit
    | i + 1, j + 1 =>
      rw [swapList_cons_succ]
      exact (ih i j (by simpa using hi) (by simpa using hj)).cons a

theorem prioAt_swapList_fst (l : List Patient) (i j : Nat) (hi : i < l.length) :
    prioAt (swapList l i j) i = prioAt l j := by
  rw [prioAt, prioAt, getP_swapList_fst l i j hi]

theorem prioAt_swapList_snd (l : List Patient) (i j : Nat) (hj : j < l.length) :
    prioAt (swapList l i j) j = prioAt l i := by
  rw [prioAt, prioAt, getP_swapList_snd l i j hj]

theorem prioAt_swapList_other (l : List Patient) (i j m : Nat)
    (h1 : m ≠ i) (h2 : m ≠ j) : prioAt (swapList l i j) m = prioAt l m := by
  rw [prioAt, prioAt, getP_swapList_other l i j m h1 h2]

/-! ## Correctness of `heapify_up`

Invariant carried through the bubble-up walk: the list is heap-ordered at
every parent/child pair except possibly the one into the current index `k`,
and additionally `k`'s own children (if any) are already bounded below by
`k`'s parent, so that a swap cannot break the edges leaving `k`. -/

def UpInv (l : List Patient) (k : Nat) : Prop :=
  (∀ j : Nat, 0 < j → j < l.length → j ≠ k → prioAt l ((j - 1) / 2) ≤ prioAt l j) ∧
  (0 < k → ∀ c : Nat, c < l.length → (c - 1) / 2 = k →
    prioAt l ((k - 1) / 2) ≤ prioAt l c)

theorem upInv_step (l : List Patient) (k : Nat) (hk0 : 0 < k) (hklen : k < l.length)
    (hinv : UpInv l k) (hlt : prioAt l k < prioAt l ((k - 1) / 2)) :
    UpInv (swapList l k ((k - 1) / 2)) ((k - 1) / 2) := by
  set p := (k - 1) / 2 with hp
  have hpk : p < k := by omega
  have hplen : p < l.length := by omega
  have hswap_k : prioAt (swapList l k p) k = prioAt l p := prioAt_swapList_fst l k p hklen
  have hswap_p : prioAt (swapList l k p) p = prioAt l k := prioAt_swapList_snd l k p hplen
  have hswap_o : ∀ m, m ≠ k → m ≠ p → prioAt (swapList l k p) m = prioAt l m :=
    fun m h1 h2 => prioAt_swapList_other l k p m h1 h2
  constructor
  · intro j hj0 hjlen hjp
    rw [swapList_length] at hjlen
    by_cases hjk : j = k
    · subst hjk
      rw [← hp, hswap_p, hswap_k]
      exact le_of_lt hlt
    · by_cases hjpar_k : (j - 1) / 2 = k
      · have hjne_p : j ≠ p := by omega
        rw [hjpar_k, hswap_k, hswap_o j hjk hjne_p]
        exact hinv.2 hk0 j hjlen hjpar_k
      · by_cases hjpar_p : (j - 1) / 2 = p
        · have hjne_p : j ≠ p := by omega
          rw [hjpar_p, hswap_p, hswap_o j hjk hjne_p]
          have h1 : prioAt l p ≤ prioAt l j := by
            have := hinv.1 j hj0 hjlen hjk
            rwa [hjpar_p] at this
          exact le_trans (le_of_lt hlt) h1
        · rw [hswap_o ((j - 1) / 2) hjpar_k hjpar_p, hswap_o j hjk hjp]
          exact hinv.1 j hj0 hjlen hjk
  · intro hp0 c hclen hcpar
    rw [swapList_length] at hclen
    have hppk : (p - 1) / 2 ≠ k := by omega
    have hppp : (p - 1) / 2 ≠ p := by omega
    rw [hswap_o ((p - 1) / 2) hppk hppp]
    by_cases hck : c = k
    · subst hck
      rw [hswap_k]
      exact hinv.1 p hp0 hplen (by omega)
    · have hcp : c ≠ p := by omega
      rw [hswap_o c hck hcp]
      have h1 : prioAt l p ≤ prioAt l c := by
        have := hinv.1 c (by omega) hclen hck
        rwa [hcpar] at this
      exact le_trans (hinv.1 p hp0 hplen (by omega)) h1

theorem heapify_up_isHeapParent :
    ∀ (l : List Patient) (k : Nat), k < l.length → UpInv l k →
      IsHeapParent (heapify_up l k) := by
  intro l k
  induction l, k using heapify_up.induct with
  | case1 l k h ih =>
    intro hk hinv
    rw [heapify_up, dif_pos h]
    apply ih
    · rw [swapList_length]; omega
    · exact upInv_step l k h.1 hk hinv h.2
  | case2 l k h =>
    intro hk hinv
    rw [heapify_up, dif_neg h]
    intro j hj0 hjlen
    by_cases hjk : j = k
    · subst hjk
      by_contra hcon
      exact h ⟨hj0, by omega⟩
    · exact hinv.1 j hj0 hjlen hjk

theorem heapify_up_perm :
    ∀ (l : List Patient) (k : Nat), k < l.length → (heapify_up l k).Perm l := by
  intro l k
  induction l, k using heapify_up.induct with
  | case1 l k h ih =>
    intro hk
    rw [heapify_up, dif_pos h]
    have hplen : (k - 1) / 2 < l.length := by omega
    exact (ih (by rw [swapList_length]; omega)).trans (swapList_perm l k _ hk hplen)
  | case2 l k h =>
    intro hk
    rw [heapify_up, dif_neg h]

theorem heapify_up_length (l : List Patient) (k : Nat) (hk : k < l.length) :
    (heapify_up l k).length = l.length :=
  (heapify_up_perm l k hk).length_eq

/-! ## The two formulations of the heap-order invariant agree -/

theorem isHeap_iff_parent (l : List Patient) : IsHeap l ↔ IsHeapParent l := by
  constructor
  · intro h j hj0 hjlen
    have hc : j = 2 * ((j - 1) / 2) + 1 ∨ j = 2 * ((j - 1) / 2) + 2 := by omega
    rcases hc with hc | hc
    · have h1 := (h ((j - 1) / 2)).1 (by omega)
      rwa [← hc] at h1
    · have h1 := (h ((j - 1) / 2)).2 (by omega)
      rwa [← hc] at h1
  · intro h i
    constructor
    · intro hlt
      have h1 := h (2 * i + 1) (by omega) hlt
      have heq : (2 * i + 1 - 1) / 2 = i := by omega
      rwa [heq] at h1
    · intro hlt
      have h1 := h (2 * i + 2) (by omega) hlt
      have heq : (2 * i + 2 - 1) / 2 = i := by omega
      rwa [heq] at h1

instance decidableIsHeap (l : List Patient) : Decidable (IsHeap l) :=
  decidable_of_iff
    (∀ i : Nat, i < l.length →
      (2 * i + 1 < l.length → prioAt l i ≤ prioAt l (2 * i + 1)) ∧
      (2 * i + 2 < l.length → prioAt l i ≤ prioAt l (2 * i + 2)))
    (by
      constructor
      · intro h i
        by_cases hi : i < l.length
        · exact h i hi
        · exact ⟨fun hc => absurd hc (by omega), fun hc => absurd hc (by omega)⟩
      · intro h i _
        exact h i)

/-- In a heap the root bounds every in-range index. -/
theorem isHeapParent_root_min (l : List Patient) (h : IsHeapParent l) :
    ∀ i : Nat, i < l.length → prioAt l 0 ≤ prioAt l i := by
  intro i
  induction i using Nat.strong_induction_on with
  | _ i ih =>
    intro hi
    rcases Nat.eq_zero_or_pos i with rfl | hi0
    · exact le_refl _
    · exact le_trans (ih ((i - 1) / 2) (by omega) (by omega)) (h i hi0 hi)

/-- In a heap the root bounds every member of the list. -/
theorem isHeapParent_root_min_mem (l : List Patient) (h : IsHeapParent l)
    (p : Patient) (hp : p ∈ l) : (getP l 0).priority_level ≤ p.priority_level := by
  obtain ⟨i, hi, rfl⟩ := List.mem_iff_getElem.1 hp
  have h1 := isHeapParent_root_min l h i hi
  rwa [prioAt, prioAt, getP_eq_getElem _ _ hi] at h1

/-! ## Correctness of `heapify_down` -/

/-- When `downTarget` moves, it moves to a child of `k` that is in range, has
strictly smaller priority than `k`, and minimal priority among `k`'s in-range
children — with the left child preferred on ties, because the right child is
selected only when strictly smaller than the current `smallest`. -/
theorem downTarget_spec (l : List Patient) (k : Nat) (h : downTarget l k ≠ k) :
    (downTarget l k = 2 * k + 1 ∨ downTarget l k = 2 * k + 2) ∧
    downTarget l k < l.length ∧
    prioAt l (downTarget l k) < prioAt l k ∧
    (∀ c : Nat, c < l.length → (c - 1) / 2 = k →
      prioAt l (downTarget l k) ≤ prioAt l c) := by
  unfold downTarget at *
  split_ifs at * with h1 h2 h2 <;>
    refine ⟨by omega, by omega, by omega, ?_⟩ <;>
    · intro c hc hcpar
      have hc2 : c = 2 * k + 1 ∨ c = 2 * k + 2 ∨ (c = 0 ∧ k = 0) := by omega
      rcases hc2 with rfl | rfl | ⟨rfl, rfl⟩ <;> omega

/-- When `downTarget` stays put, no in-range child of `k` is strictly
smaller. -/
theorem downTarget_eq_spec (l : List Patient) (k : Nat) (h : downTarget l k = k) :
    ∀ c : Nat, c < l.length → (c - 1) / 2 = k → prioAt l k ≤ prioAt l c := by
  intro c hc hcpar
  have hc2 : c = 2 * k + 1 ∨ c = 2 * k + 2 ∨ (c = 0 ∧ k = 0) := by omega
  unfold downTarget at h
  split_ifs at h with h1 h2 h2 <;>
    rcases hc2 with rfl | rfl | ⟨rfl, rfl⟩ <;> omega

/-- Invariant carried through the bubble-down walk: every parent/child edge
holds except possibly the ones leaving the current index `k`, and `k`'s
parent (if any) already bounds `k`'s children. -/
def DownInv (l : List Patient) (k : Nat) : Prop :=
  (∀ j : Nat, 0 < j → j < l.length → (j - 1) / 2 ≠ k →
    prioAt l ((j - 1) / 2) ≤ prioAt l j) ∧
  (0 < k → ∀ c : Nat, c < l.length → (c - 1) / 2 = k →
    prioAt l ((k - 1) / 2) ≤ prioAt l c)

theorem downInv_step (l : List Patient) (k : Nat)
    (hinv : DownInv l k) (h : downTarget l k ≠ k) :
    DownInv (swapList l k (downTarget l k)) (downTarget l k) := by
  obtain ⟨hchild, hdtlen, hlt, hmin⟩ := downTarget_spec l k h
  set dt := downTarget l k with hdt
  have hkdt : k < dt := by omega
  have hklen : k < l.length := by omega
  have hpardt : (dt - 1) / 2 = k := by omega
  have hswap_k : prioAt (swapList l k dt) k = prioAt l dt := prioAt_swapList_fst l k dt hklen
  have hswap_dt : prioAt (swapList l k dt) dt = prioAt l k := prioAt_swapList_snd l k dt hdtlen
  have hswap_o : ∀ m, m ≠ k → m ≠ dt → prioAt (swapList l k dt) m = prioAt l m :=
    fun m h1 h2 => prioAt_swapList_other l k dt m h1 h2
  constructor
  · intro j hj0 hjlen hjpar_ne
    rw [swapList_length] at hjlen
    by_cases hjk : j = k
    · subst hjk
      rw [hswap_o ((j - 1) / 2) (by omega) (by omega), hswap_k]
      exact hinv.2 hj0 dt hdtlen hpardt
    · by_cases hjdt : j = dt
      · subst hjdt
        rw [hpardt, hswap_k, hswap_dt]
        exact le_of_lt hlt
      · by_cases hjpark : (j - 1) / 2 = k
        · rw [hjpark, hswap_k, hswap_o j hjk hjdt]
          exact hmin j hjlen hjpark
        · rw [hswap_o ((j - 1) / 2) hjpark hjpar_ne, hswap_o j hjk hjdt]
          exact hinv.1 j hj0 hjlen hjpark
  · intro hdt0 c hclen hcpar
    rw [swapList_length] at hclen
    rw [hpardt, hswap_k, hswap_o c (by omega) (by omega)]
    have h1 := hinv.1 c (by omega) hclen (by omega)
    rwa [hcpar] at h1

theorem heapify_down_isHeapParent :
    ∀ (l : List Patient) (k : Nat), DownInv l k → IsHeapParent (heapify_down l k) := by
  intro l k
  induction l, k using heapify_down.induct with
  | case1 l k h ih =>
    intro hinv
    rw [heapify_down, dif_pos h]
    exact ih (downInv_step l k hinv h)
  | case2 l k h =>
    intro hinv
    rw [heapify_down, dif_neg h]
    intro j hj0 hjlen
    by_cases hjpark : (j - 1) / 2 = k
    · rw [hjpark]
      have hdt : downTarget l k = k := by omega
      exact downTarget_eq_spec l k hdt j hjlen hjpark
    · exact hinv.1 j hj0 hjlen hjpark

theorem heapify_down_perm :
    ∀ (l : List Patient) (k : Nat), (heapify_down l k).Perm l := by
  intro l k
  induction l, k using heapify_down.induct with
  | case1 l k h ih =>
    rw [heapify_down, dif_pos h]
    have hfacts := downTarget_lt l k h
    exact ih.trans (swapList_perm l k (downTarget l k) (by omega) (by omega))
  | case2 l k h =>
    rw [heapify_down, dif_neg h]

theorem heapify_down_length (l : List Patient) (k : Nat) :
    (heapify_down l k).length = l.length :=
  (heapify_down_perm l k).length_eq

/-- The bubble-down walk never touches an index below its starting index. -/
theorem heapify_down_getP_lt :
    ∀ (l : List Patient) (k : Nat) (m : Nat), m < k →
      getP (heapify_down l k) m = getP l m := by
  intro l k
  induction l, k using heapify_down.induct with
  | case1 l k h ih =>
    intro m hm
    rw [heapify_down, dif_pos h]
    have hfacts := downTarget_lt l k h
    rw [ih m (by omega), getP_swapList_other l k _ m (by omega) (by omega)]
  | case2 l k h =>
    intro m hm
    rw [heapify_down, dif_neg h]

/-! ## Correctness of `insert_patient_to_heap` -/

/-- A freshly appended element satisfies the bubble-up precondition: every
old edge still holds and the new leaf has no children. -/
theorem upInv_append (l : List Patient) (p : Patient) (hl : IsHeapParent l) :
    UpInv (l ++ [p]) l.length := by
  constructor
  · intro j hj0 hjlen hjk
    simp only [List.length_append, List.length_cons, List.length_nil] at hjlen
    have hjl : j < l.length := by omega
    rw [prioAt_append_left _ _ _ hjl, prioAt_append_left _ _ _ (by omega)]
    exact hl j hj0 hjl
  · intro hk0 c hclen hcpar
    exfalso
    simp only [List.length_append, List.length_cons, List.length_nil] at hclen
    omega

theorem insert_full (heap : MinHeap) (p : Patient)
    (hfull : heap.patients.length = heap.capacity) :
    insert_patient_to_heap heap p = (heap, true) := by
  unfold insert_patient_to_heap
  rw [if_pos hfull]

theorem insert_not_full (heap : MinHeap) (p : Patient)
    (hnf : heap.patients.length ≠ heap.capacity) :
    insert_patient_to_heap heap p =
      ({ heap with
          patients := heapify_up (heap.patients ++ [p]) heap.patients.length },
        false) := by
  unfold insert_patient_to_heap
  rw [if_neg hnf]

theorem insert_isHeapParent (heap : MinHeap) (p : Patient)
    (hh : IsHeapParent heap.patients) :
    IsHeapParent ((insert_patient_to_heap heap p).1.patients) := by
  by_cases hfull : heap.patients.length = heap.capacity
  · rw [insert_full heap p hfull]
    exact hh
  · rw [insert_not_full heap p hfull]
    exact heapify_up_isHeapParent _ _ (by simp) (upInv_append _ p hh)

theorem insert_perm (heap : MinHeap) (p : Patient)
    (hnf : heap.patients.length ≠ heap.capacity) :
    ((insert_patient_to_heap heap p).1.patients).Perm (heap.patients ++ [p]) := by
  rw [insert_not_full heap p hnf]
  exact heapify_up_perm _ _ (by simp)

theorem insert_length (heap : MinHeap) (p : Patient)
    (hnf : heap.patients.length ≠ heap.capacity) :
    (insert_patient_to_heap heap p).1.patients.length = heap.patients.length + 1 := by
  have h1 := (insert_perm heap p hnf).length_eq
  simpa using h1

theorem insert_capacity (heap : MinHeap) (p : Patient) :
    (insert_patient_to_heap heap p).1.capacity = heap.capacity := by
  unfold insert_patient_to_heap
  split_ifs <;> rfl

/-! ## Correctness of `extract_min` -/

theorem extract_min_empty (heap : MinHeap) (hz : heap.patients.length = 0) :
    extract_min heap = ({ name := "", priority_level := -1, patient_id := -1 }, heap) := by
  unfold extract_min
  rw [if_pos hz]

theorem extract_min_single (heap : MinHeap) (h1 : heap.patients.length = 1) :
    extract_min heap = (getP heap.patients 0, { heap with patients := [] }) := by
  unfold extract_min
  rw [if_neg (by omega), if_pos h1]

theorem extract_min_fst (heap : MinHeap) (hne : heap.patients.length ≠ 0) :
    (extract_min heap).1 = getP heap.patients 0 := by
  unfold extract_min
  rw [if_neg hne]
  split_ifs <;> rfl

theorem set_take_last (a b : Patient) (m : List Patient) :
    ((a :: (m ++ [b])).set 0
        (getP (a :: (m ++ [b])) ((a :: (m ++ [b])).length - 1))).take
      ((a :: (m ++ [b])).length - 1) = b :: m := by
  have hlen : (a :: (m ++ [b])).length - 1 = m.length + 1 := by simp
  rw [hlen]
  have hget : getP (a :: (m ++ [b])) (m.length + 1) = b := by
    rw [getP_cons_succ]
    exact getP_append_last m b
  rw [hget, List.set_cons_zero, List.take_succ_cons]
  congr 1
  exact List.take_left m [b]

theorem exists_cons_concat (l : List Patient) (h2 : 2 ≤ l.length) :
    ∃ a m b, l = a :: (m ++ [b]) := by
  have hne : l ≠ [] := by
    intro h
    rw [h] at h2
    simp at h2
  obtain ⟨a, t, rfl⟩ := List.exists_cons_of_ne_nil hne
  rcases List.eq_nil_or_concat t with rfl | ⟨m, b, rfl⟩
  · simp at h2
  · exact ⟨a, m, b, by rw [List.concat_eq_append]⟩

theorem extract_min_main_decomp (heap : MinHeap) (a b : Patient) (m : List Patient)
    (hpat : heap.patients = a :: (m ++ [b])) :
    extract_min heap = (a, { heap with patients := heapify_down (b :: m) 0 }) := by
  have hlen : heap.patients.length = m.length + 2 := by rw [hpat]; simp
  unfold extract_min
  rw [if_neg (by omega), if_neg (by omega)]
  simp only [hpat, set_take_last, getP_cons_zero]

/-- After moving the last element to the root, all edges not leaving the root
still hold, which is exactly the bubble-down precondition. -/
theorem downInv_init (a b : Patient) (m : List Patient)
    (hl : IsHeapParent (a :: (m ++ [b]))) : DownInv (b :: m) 0 := by
  have key : ∀ i : Nat, 0 < i → i ≤ m.length →
      prioAt (b :: m) i = prioAt (a :: (m ++ [b])) i := by
    intro i hi0 him
    obtain ⟨i', rfl⟩ : ∃ i', i = i' + 1 := ⟨i - 1, by omega⟩
    rw [prioAt, prioAt, getP_cons_succ, getP_cons_succ,
      getP_append_left _ _ _ (by omega)]
  constructor
  · intro j hj0 hjlen hjpar
    simp only [List.length_cons] at hjlen
    have hjm : j ≤ m.length := by omega
    rw [key j hj0 hjm, key ((j - 1) / 2) (by omega) (by omega)]
    exact hl j hj0 (by simp; omega)
  · intro h0
    exact absurd h0 (lt_irrefl 0)

theorem extract_min_isHeapParent (heap : MinHeap) (hh : IsHeapParent heap.patients) :
    IsHeapParent ((extract_min heap).2.patients) := by
  rcases Nat.lt_or_ge heap.patients.length 2 with hlt | hge
  · by_cases hz : heap.patients.length = 0
    · rw [extract_min_empty heap hz]
      exact hh
    · rw [extract_min_single heap (by omega)]
      intro j hj0 hjlen
      simp at hjlen
  · obtain ⟨a, m, b, hpat⟩ := exists_cons_concat heap.patients hge
    rw [extract_min_main_decomp heap a b m hpat]
    exact heapify_down_isHeapParent _ _ (downInv_init a b m (hpat ▸ hh))

theorem extract_min_capacity (heap : MinHeap) :
    (extract_min heap).2.capacity = heap.capacity := by
  unfold extract_min
  split_ifs <;> rfl

theorem extract_min_perm (heap : MinHeap) (hne : heap.patients.length ≠ 0) :
    ((extract_min heap).1 :: (extract_min heap).2.patients).Perm heap.patients := by
  rcases Nat.lt_or_ge heap.patients.length 2 with hlt | hge
  · have h1 : heap.patients.length = 1 := by omega
    obtain ⟨a, ha⟩ := List.length_eq_one.1 h1
    have hget : getP [a] 0 = a := rfl
    simp only [extract_min_single heap h1, ha, hget]
    exact List.Perm.refl _
  · obtain ⟨a, m, b, hpat⟩ := exists_cons_concat heap.patients hge
    rw [extract_min_main_decomp heap a b m hpat, hpat]
    exact ((heapify_down_perm (b :: m) 0).trans
      (List.perm_append_singleton b m).symm).cons a

theorem extract_min_length (heap : MinHeap) (hne : heap.patients.length ≠ 0) :
    (extract_min heap).2.patients.length = heap.patients.length - 1 := by
  have h1 := (extract_min_perm heap hne).length_eq
  simp only [List.length_cons] at h1
  omega

/-- The record returned by `extract_min` on a nonempty heap is a member of the
heap and has minimal priority among all records in it. -/
theorem extract_min_is_min (heap : MinHeap) (hne : heap.patients.length ≠ 0)
    (hh : IsHeapParent heap.patients) :
    (extract_min heap).1 ∈ heap.patients ∧
    ∀ p ∈ heap.patients, (extract_min heap).1.priority_level ≤ p.priority_level := by
  have hfst := extract_min_fst heap hne
  have hlen : 0 < heap.patients.length := by omega
  constructor
  · rw [hfst, getP_eq_getElem _ _ hlen]
    exact List.getElem_mem hlen
  · intro p hp
    rw [hfst]
    exact isHeapParent_root_min_mem heap.patients hh p hp

/-! ## Sequences of heap operations (for the all-sequences invariant) -/

/-- A public heap operation: `insert_patient_to_heap` or `extract_min`. -/
inductive HeapOp where
  | insertOp (p : Patient)
  | extractOp
deriving DecidableEq

/-- Run a sequence of heap operations left to right. -/
def runHeapOps (h : MinHeap) : List HeapOp → MinHeap
  | [] => h
  | HeapOp.insertOp p :: rest => runHeapOps (insert_patient_to_heap h p).1 rest
  | HeapOp.extractOp :: rest => runHeapOps (extract_min h).2 rest

theorem isHeapParent_nil : IsHeapParent ([] : List Patient) := by
  intro j hj0 hjlen
  simp at hjlen

theorem runHeapOps_isHeapParent (ops : List HeapOp) :
    ∀ h : MinHeap, IsHeapParent h.patients →
      IsHeapParent (runHeapOps h ops).patients := by
  induction ops with
  | nil => exact fun h hh => hh
  | cons op rest ih =>
    intro h hh
    cases op with
    | insertOp p => exact ih _ (insert_isHeapParent h p hh)
    | extractOp => exact ih _ (extract_min_isHeapParent h hh)

/-! ## Insert-all / extract-all (for the sorted-output property) -/

/-- Insert a whole list of patients, left to right. -/
def insertAll (h : MinHeap) (ps : List Patient) : MinHeap :=
  ps.foldl (fun acc p => (insert_patient_to_heap acc p).1) h

/-- Extract `n` times, collecting the returned records in call order. -/
def extractN (h : MinHeap) : Nat → List Patient × MinHeap
  | 0 => ([], h)
  | n + 1 =>
    ((extract_min h).1 :: (extractN (extract_min h).2 n).1,
      (extractN (extract_min h).2 n).2)

theorem insertAll_spec (ps : List Patient) :
    ∀ h : MinHeap, IsHeapParent h.patients →
      h.patients.length + ps.length ≤ h.capacity →
      IsHeapParent ((insertAll h ps).patients) ∧
      ((insertAll h ps).patients).Perm (h.patients ++ ps) ∧
      (insertAll h ps).capacity = h.capacity := by
  induction ps with
  | nil =>
    intro h hh _
    exact ⟨hh, by simp [insertAll], rfl⟩
  | cons p rest ih =>
    intro h hh hcap
    simp only [List.length_cons] at hcap
    have hnf : h.patients.length ≠ h.capacity := by omega
    have hstep : insertAll h (p :: rest) = insertAll (insert_patient_to_heap h p).1 rest := rfl
    obtain ⟨ih1, ih2, ih3⟩ := ih (insert_patient_to_heap h p).1
      (insert_isHeapParent h p hh)
      (by rw [insert_length h p hnf, insert_capacity h p]; omega)
    rw [hstep]
    refine ⟨ih1, ?_, by rw [ih3, insert_capacity h p]⟩
    have hmid : ((insert_patient_to_heap h p).1.patients ++ rest).Perm
        ((h.patients ++ [p]) ++ rest) := (insert_perm h p hnf).append_right rest
    have hassoc : (h.patients ++ [p]) ++ rest = h.patients ++ (p :: rest) := by simp
    exact ih2.trans (hassoc ▸ hmid)

theorem extractN_spec :
    ∀ (n : Nat) (h : MinHeap), IsHeapParent h.patients → h.patients.length = n →
      ((extractN h n).1).Perm h.patients ∧
      List.Pairwise (fun p q : Patient => p.priority_level ≤ q.priority_level)
        (extractN h n).1 ∧
      (extractN h n).2.patients = [] := by
  intro n
  induction n with
  | zero =>
    intro h hh hlen
    have hnil : h.patients = [] := List.length_eq_zero.1 hlen
    refine ⟨?_, by simp [extractN], by simp [extractN, hnil]⟩
    rw [hnil]
    exact List.Perm.refl _
  | succ n ih =>
    intro h hh hlen
    have hne : h.patients.length ≠ 0 := by omega
    have hperm1 := extract_min_perm h hne
    have hmin := extract_min_is_min h hne hh
    have hh2 := extract_min_isHeapParent h hh
    have hlen2 : (extract_min h).2.patients.length = n := by
      rw [extract_min_length h hne]; omega
    obtain ⟨p1, p2, p3⟩ := ih (extract_min h).2 hh2 hlen2
    refine ⟨(p1.cons _).trans hperm1, ?_, p3⟩
    refine List.Pairwise.cons ?_ p2
    intro q hq
    have hq2 : q ∈ (extract_min h).2.patients := p1.mem_iff.1 hq
    have hq3 : q ∈ h.patients := hperm1.subset (List.mem_cons_of_mem _ hq2)
    exact hmin.2 q hq3

/-! ## Sequences of registry operations -/

/-- A public registry operation: an admission (`add_patient`) or a service
(`treat_next_patient`). -/
inductive SysOp where
  | addOp (name : String) (priority : Int)
  | serveOp
deriving DecidableEq

/-- One registry step. -/
def sysStep (sys : TriageSystem) : SysOp → TriageSystem
  | SysOp.addOp n p => add_patient sys n p
  | SysOp.serveOp => treat_next_patient sys

/-- Run a sequence of registry operations left to right. -/
def runSys (sys : TriageSystem) : List SysOp → TriageSystem
  | [] => sys
  | op :: rest => runSys (sysStep sys op) rest

/-- The identifiers handed out by the successive admissions of an operation
sequence, in call order (each `add_patient` stamps the current
`next_patient_id` into the new record). -/
def assignedIds (sys : TriageSystem) : List SysOp → List Int
  | [] => []
  | SysOp.addOp n p :: rest => sys.next_patient_id :: assignedIds (add_patient sys n p) rest
  | SysOp.serveOp :: rest => assignedIds (treat_next_patient sys) rest

/-- The number of admissions in an operation sequence. -/
def countAdds : List SysOp → Nat
  | [] => 0
  | SysOp.addOp _ _ :: rest => countAdds rest + 1
  | SysOp.serveOp :: rest => countAdds rest

/-- The chronological list of records that a run appends to the treated log:
one record per service that found the waiting list nonempty and the log below
capacity. -/
def loggedServed (sys : TriageSystem) : List SysOp → List Patient
  | [] => []
  | SysOp.addOp n p :: rest => loggedServed (add_patient sys n p) rest
  | SysOp.serveOp :: rest =>
    (if 0 < sys.waiting_list.patients.length ∧
        sys.treated_log.patients.length < sys.treated_log.capacity then
      [(extract_min sys.waiting_list).1]
    else []) ++ loggedServed (treat_next_patient sys) rest

/-! ## Registry-level facts -/

theorem add_patient_next_id (sys : TriageSystem) (n : String) (p : Int) :
    (add_patient sys n p).next_patient_id = sys.next_patient_id + 1 := rfl

theorem add_patient_log (sys : TriageSystem) (n : String) (p : Int) :
    (add_patient sys n p).treated_log = sys.treated_log := rfl

theorem treat_next_patient_empty (sys : TriageSystem)
    (h : sys.waiting_list.patients.length = 0) : treat_next_patient sys = sys := by
  unfold treat_next_patient
  rw [if_pos h]

theorem treat_next_patient_logged (sys : TriageSystem)
    (hne : sys.waiting_list.patients.length ≠ 0)
    (hroom : sys.treated_log.patients.length < sys.treated_log.capacity) :
    treat_next_patient sys =
      { sys with
          waiting_list := (extract_min sys.waiting_list).2
          treated_log :=
            { sys.treated_log with
                patients :=
                  sys.treated_log.patients ++ [(extract_min sys.waiting_list).1] } } := by
  unfold treat_next_patient
  rw [if_neg hne, if_pos hroom]

theorem treat_next_patient_log_full (sys : TriageSystem)
    (hne : sys.waiting_list.patients.length ≠ 0)
    (hfull : ¬ sys.treated_log.patients.length < sys.treated_log.capacity) :
    treat_next_patient sys =
      { sys with waiting_list := (extract_min sys.waiting_list).2 } := by
  unfold treat_next_patient
  rw [if_neg hne, if_neg hfull]

theorem treat_next_patient_next_id (sys : TriageSystem) :
    (treat_next_patient sys).next_patient_id = sys.next_patient_id := by
  unfold treat_next_patient
  split_ifs <;> rfl

theorem assignedIds_eq (ops : List SysOp) :
    ∀ sys : TriageSystem,
      assignedIds sys ops =
        (List.range (countAdds ops)).map (fun k : Nat => sys.next_patient_id + (k : Int)) := by
  induction ops with
  | nil => intro sys; simp [assignedIds, countAdds]
  | cons op rest ih =>
    intro sys
    cases op with
    | addOp n p =>
      show sys.next_patient_id :: assignedIds (add_patient sys n p) rest =
        (List.range (countAdds rest + 1)).map (fun k : Nat => sys.next_patient_id + (k : Int))
      rw [ih, add_patient_next_id, List.range_succ_eq_map, List.map_cons, List.map_map]
      congr 1
      · simp
      · apply List.map_congr_left
        intro a _
        simp only [Function.comp_apply]
        push_cast
        ring
    | serveOp =>
      show assignedIds (treat_next_patient sys) rest =
        (List.range (countAdds rest)).map (fun k : Nat => sys.next_patient_id + (k : Int))
      rw [ih, treat_next_patient_next_id]

theorem runSys_log (ops : List SysOp) :
    ∀ sys : TriageSystem,
      (runSys sys ops).treated_log.patients =
        sys.treated_log.patients ++ loggedServed sys ops := by
  induction ops with
  | nil => intro sys; simp [runSys, loggedServed]
  | cons op rest ih =>
    intro sys
    cases op with
    | addOp n p =>
      show (runSys (add_patient sys n p) rest).treated_log.patients =
        sys.treated_log.patients ++ loggedServed (add_patient sys n p) rest
      rw [ih, add_patient_log]
    | serveOp =>
      show (runSys (treat_next_patient sys) rest).treated_log.patients =
        sys.treated_log.patients ++
          ((if 0 < sys.waiting_list.patients.length ∧
              sys.treated_log.patients.length < sys.treated_log.capacity then
            [(extract_min sys.waiting_list).1]
          else []) ++ loggedServed (treat_next_patient sys) rest)
      rw [ih]
      by_cases hne : 0 < sys.waiting_list.patients.length
      · by_cases hroom : sys.treated_log.patients.length < sys.treated_log.capacity
        · rw [if_pos ⟨hne, hroom⟩, treat_next_patient_logged sys (by omega) hroom]
          simp
        · rw [if_neg (fun hc => hroom hc.2), treat_next_patient_log_full sys (by omega) hroom]
          simp
      · rw [if_neg (fun hc => hne hc.1), treat_next_patient_empty sys (by omega)]
        simp

/-- Per step, the log either stays or grows by exactly one appended record. -/
theorem sysStep_log_append_only (sys : TriageSystem) (op : SysOp) :
    (sysStep sys op).treated_log.patients = sys.treated_log.patients ∨
    ∃ p : Patient,
      (sysStep sys op).treated_log.patients = sys.treated_log.patients ++ [p] := by
  cases op with
  | addOp n p => exact Or.inl (by rw [show sysStep sys (SysOp.addOp n p) = add_patient sys n p from rfl, add_patient_log])
  | serveOp =>
    have hstep : sysStep sys SysOp.serveOp = treat_next_patient sys := rfl
    rw [hstep]
    by_cases hne : sys.waiting_list.patients.length = 0
    · rw [treat_next_patient_empty sys hne]
      exact Or.inl rfl
    · by_cases hroom : sys.treated_log.patients.length < sys.treated_log.capacity
      · rw [treat_next_patient_logged sys hne hroom]
        exact Or.inr ⟨(extract_min sys.waiting_list).1, rfl⟩
      · rw [treat_next_patient_log_full sys hne hroom]
        exact Or.inl rfl

/-- Left-child preference on ties during bubble-down: when both children are in
range, have equal priority, and beat the parent, the swap goes to the left
child (index `2k+1`), which ends up at index `k` in the final list. -/
theorem heapify_down_tie (l : List Patient) (k : Nat) (hr : 2 * k + 2 < l.length)
    (heq : prioAt l (2 * k + 1) = prioAt l (2 * k + 2))
    (hlt : prioAt l (2 * k + 1) < prioAt l k) :
    getP (heapify_down l k) k = getP l (2 * k + 1) := by
  have hdt : downTarget l k = 2 * k + 1 := by
    unfold downTarget
    rw [if_pos ⟨by omega, hlt⟩, if_neg (fun hc => absurd hc.2 (by omega))]
  rw [heapify_down, hdt, dif_pos (show (2 * k + 1 : Nat) ≠ k by omega),
    heapify_down_getP_lt _ _ k (by omega),
    getP_swapList_fst l k (2 * k + 1) (by omega)]

/-! ## The claims -/

/-- C1: On every heap satisfying the heap-order invariant with `size > 0`,
`extract_min` returns an Entity Record whose priority is the minimum of all
records currently in the heap; the returned record is the one stored at index
0 — the structurally leftmost position — hence the leftmost among
equal-priority contenders; and during bubble-down a tie between the left and
right child is resolved in favour of the left child. -/
theorem c1_extract_min_minimum_leftmost_tie (heap : MinHeap)
    (hne : 0 < heap.patients.length) (hheap : IsHeap heap.patients) :
    ((extract_min heap).1 ∈ heap.patients ∧
      (∀ p ∈ heap.patients,
        (extract_min heap).1.priority_level ≤ p.priority_level) ∧
      (extract_min heap).1 = getP heap.patients 0) ∧
    (∀ (l : List Patient) (k : Nat), 2 * k + 2 < l.length →
      prioAt l (2 * k + 1) = prioAt l (2 * k + 2) →
      prioAt l (2 * k + 1) < prioAt l k →
      getP (heapify_down l k) k = getP l (2 * k + 1)) := by
  have hp := (isHeap_iff_parent _).1 hheap
  have hmin := extract_min_is_min heap (by omega) hp
  exact ⟨⟨hmin.1, hmin.2, extract_min_fst heap (by omega)⟩, heapify_down_tie⟩

theorem c1_witness :
    (0 < (MinHeap.mk [⟨"a", 1, 1⟩, ⟨"b", 1, 2⟩, ⟨"c", 1, 3⟩] 3).patients.length ∧
      IsHeap (MinHeap.mk [⟨"a", 1, 1⟩, ⟨"b", 1, 2⟩, ⟨"c", 1, 3⟩] 3).patients) ∧
    (((extract_min (MinHeap.mk [⟨"a", 1, 1⟩, ⟨"b", 1, 2⟩, ⟨"c", 1, 3⟩] 3)).1 ∈
        (MinHeap.mk [⟨"a", 1, 1⟩, ⟨"b", 1, 2⟩, ⟨"c", 1, 3⟩] 3).patients ∧
      (∀ p ∈ (MinHeap.mk [⟨"a", 1, 1⟩, ⟨"b", 1, 2⟩, ⟨"c", 1, 3⟩] 3).patients,
        (extract_min (MinHeap.mk [⟨"a", 1, 1⟩, ⟨"b", 1, 2⟩, ⟨"c", 1, 3⟩] 3)).1.priority_level
          ≤ p.priority_level) ∧
      (extract_min (MinHeap.mk [⟨"a", 1, 1⟩, ⟨"b", 1, 2⟩, ⟨"c", 1, 3⟩] 3)).1 =
        getP (MinHeap.mk [⟨"a", 1, 1⟩, ⟨"b", 1, 2⟩, ⟨"c", 1, 3⟩] 3).patients 0) ∧
    (∀ (l : List Patient) (k : Nat), 2 * k + 2 < l.length →
      prioAt l (2 * k + 1) = prioAt l (2 * k + 2) →
      prioAt l (2 * k + 1) < prioAt l k →
      getP (heapify_down l k) k = getP l (2 * k + 1))) :=
  ⟨⟨by decide, by decide⟩,
    c1_extract_min_minimum_leftmost_tie _ (by decide) (by decide)⟩

/-- C2: For every sequence of insert and extract_min calls starting from an
empty heap — hence for all priority values, including duplicates, negatives
and zero — the heap-order invariant (parent ≤ left child and parent ≤ right
child wherever the child index is inside the current size) holds when each
call completes. -/
theorem c2_heap_invariant_all_sequences (cap : Nat) (ops : List HeapOp) :
    IsHeap ((runHeapOps (create_heap cap) ops).patients) := by
  rw [isHeap_iff_parent]
  exact runHeapOps_isHeapParent ops (create_heap cap) isHeapParent_nil

/-- C3: Inserting any `n ≤ capacity` entities into an empty heap and then
extracting `n` times yields exactly those `n` entities (a permutation), in
non-decreasing order of priority. -/
theorem c3_insert_all_extract_all_sorted (ps : List Patient) (cap : Nat)
    (hcap : ps.length ≤ cap) :
    ((extractN (insertAll (create_heap cap) ps) ps.length).1).Perm ps ∧
    List.Pairwise (fun p q : Patient => p.priority_level ≤ q.priority_level)
      (extractN (insertAll (create_heap cap) ps) ps.length).1 := by
  obtain ⟨h1, h2, h3⟩ := insertAll_spec ps (create_heap cap) isHeapParent_nil
    (by simpa [create_heap] using hcap)
  have h2' : ((insertAll (create_heap cap) ps).patients).Perm ps := by
    simpa [create_heap] using h2
  have hlen : (insertAll (create_heap cap) ps).patients.length = ps.length :=
    h2'.length_eq
  obtain ⟨e1, e2, _⟩ := extractN_spec ps.length _ h1 hlen
  exact ⟨e1.trans h2', e2⟩

theorem c3_witness :
    ([⟨"x", 3, 10⟩, ⟨"y", -1, 11⟩, ⟨"z", 3, 12⟩] : List Patient).length ≤ 3 ∧
    (((extractN (insertAll (create_heap 3)
          [⟨"x", 3, 10⟩, ⟨"y", -1, 11⟩, ⟨"z", 3, 12⟩])
        ([⟨"x", 3, 10⟩, ⟨"y", -1, 11⟩, ⟨"z", 3, 12⟩] : List Patient).length).1).Perm
        [⟨"x", 3, 10⟩, ⟨"y", -1, 11⟩, ⟨"z", 3, 12⟩] ∧
      List.Pairwise (fun p q : Patient => p.priority_level ≤ q.priority_level)
        (extractN (insertAll (create_heap 3)
            [⟨"x", 3, 10⟩, ⟨"y", -1, 11⟩, ⟨"z", 3, 12⟩])
          ([⟨"x", 3, 10⟩, ⟨"y", -1, 11⟩, ⟨"z", 3, 12⟩] : List Patient).length).1) :=
  ⟨by decide, c3_insert_all_extract_all_sorted _ 3 (by decide)⟩

/-- C4: Starting from a freshly constructed system, the successive admissions
of any operation sequence are assigned identifiers 1, 2, 3, … in call order,
and `add_patient` increments the `next_patient_id` counter unconditionally —
in particular also when the underlying heap insert fails because the heap is
full, since the counter update does not consult the insert's outcome. -/
theorem c4_identifiers_sequential (cap : Nat) (ops : List SysOp) :
    assignedIds (create_triage_system cap) ops =
      (List.range (countAdds ops)).map (fun k : Nat => (1 : Int) + (k : Int)) ∧
    ∀ (sys : TriageSystem) (n : String) (p : Int),
      (add_patient sys n p).next_patient_id = sys.next_patient_id + 1 := by
  refine ⟨?_, fun sys n p => rfl⟩
  rw [assignedIds_eq]
  rfl

/-- C5: the claim says `extract_min` on a heap of size 0 fails with an explicit
`EmptyQueue` error; the code instead fabricates and returns the sentinel
record `{"", -1, -1}` while leaving the heap unchanged — evaluated here at the
failing input (a freshly created heap). -/
theorem c5_extract_min_empty_returns_fabricated_record :
    extract_min (create_heap 5) =
      ({ name := "", priority_level := -1, patient_id := -1 }, create_heap 5) := rfl

/-- C6: Inserting into a heap whose size equals its capacity runs the error
branch (the reported failure) and returns the heap completely unchanged, while
inserting into a heap with size strictly below capacity succeeds (no error
report) and increases the size by exactly one, preserving the capacity. -/
theorem c6_insert_capacity_boundary (hfullHeap hfreeHeap : MinHeap) (p q : Patient)
    (hfull : hfullHeap.patients.length = hfullHeap.capacity)
    (hfree : hfreeHeap.patients.length < hfreeHeap.capacity) :
    insert_patient_to_heap hfullHeap p = (hfullHeap, true) ∧
    (insert_patient_to_heap hfreeHeap q).2 = false ∧
    (insert_patient_to_heap hfreeHeap q).1.patients.length =
      hfreeHeap.patients.length + 1 ∧
    (insert_patient_to_heap hfreeHeap q).1.capacity = hfreeHeap.capacity := by
  have hnf : hfreeHeap.patients.length ≠ hfreeHeap.capacity := by omega
  refine ⟨insert_full _ p hfull, ?_, insert_length _ q hnf, insert_capacity _ q⟩
  rw [insert_not_full _ q hnf]

theorem c6_witness :
    ((MinHeap.mk [⟨"a", 1, 1⟩] 1).patients.length = (MinHeap.mk [⟨"a", 1, 1⟩] 1).capacity ∧
      (MinHeap.mk ([] : List Patient) 1).patients.length <
        (MinHeap.mk ([] : List Patient) 1).capacity) ∧
    (insert_patient_to_heap (MinHeap.mk [⟨"a", 1, 1⟩] 1) ⟨"b", 2, 2⟩ =
        (MinHeap.mk [⟨"a", 1, 1⟩] 1, true) ∧
      (insert_patient_to_heap (MinHeap.mk ([] : List Patient) 1) ⟨"c", 3, 3⟩).2 = false ∧
      (insert_patient_to_heap (MinHeap.mk ([] : List Patient) 1) ⟨"c", 3, 3⟩).1.patients.length =
        (MinHeap.mk ([] : List Patient) 1).patients.length + 1 ∧
      (insert_patient_to_heap (MinHeap.mk ([] : List Patient) 1) ⟨"c", 3, 3⟩).1.capacity =
        (MinHeap.mk ([] : List Patient) 1).capacity) :=
  ⟨⟨by decide, by decide⟩,
    c6_insert_capacity_boundary _ _ _ _ (by decide) (by decide)⟩

/-- C7: When the waiting list is nonempty and the treated log is already at
capacity, `treat_next_patient` still removes the minimum-priority record from
the heap (size drops by one, the removed record together with the remaining
ones is a permutation of the old heap contents), the log is unchanged, and the
extraction is not rolled back; the identifier counter is also untouched. -/
theorem c7_service_not_rolled_back_on_full_log (sys : TriageSystem)
    (hne : 0 < sys.waiting_list.patients.length)
    (hfull : sys.treated_log.patients.length = sys.treated_log.capacity)
    (hheap : IsHeap sys.waiting_list.patients) :
    (treat_next_patient sys).treated_log = sys.treated_log ∧
    (treat_next_patient sys).waiting_list = (extract_min sys.waiting_list).2 ∧
    (treat_next_patient sys).waiting_list.patients.length =
      sys.waiting_list.patients.length - 1 ∧
    ((extract_min sys.waiting_list).1 ::
        (treat_next_patient sys).waiting_list.patients).Perm
      sys.waiting_list.patients ∧
    (∀ p ∈ sys.waiting_list.patients,
      (extract_min sys.waiting_list).1.priority_level ≤ p.priority_level) ∧
    (treat_next_patient sys).next_patient_id = sys.next_patient_id := by
  have hp := (isHeap_iff_parent _).1 hheap
  have hT := treat_next_patient_log_full sys (by omega) (by omega)
  rw [hT]
  exact ⟨rfl, rfl, extract_min_length _ (by omega), extract_min_perm _ (by omega),
    (extract_min_is_min _ (by omega) hp).2, rfl⟩

theorem c7_witness :
    (0 < (TriageSystem.mk (MinHeap.mk [⟨"a", 5, 1⟩] 2)
        (TreatedLog.mk ([] : List Patient) 0) 7).waiting_list.patients.length ∧
      (TriageSystem.mk (MinHeap.mk [⟨"a", 5, 1⟩] 2)
        (TreatedLog.mk ([] : List Patient) 0) 7).treated_log.patients.length =
        (TriageSystem.mk (MinHeap.mk [⟨"a", 5, 1⟩] 2)
          (TreatedLog.mk ([] : List Patient) 0) 7).treated_log.capacity ∧
      IsHeap (TriageSystem.mk (MinHeap.mk [⟨"a", 5, 1⟩] 2)
        (TreatedLog.mk ([] : List Patient) 0) 7).waiting_list.patients) ∧
    ((treat_next_patient (TriageSystem.mk (MinHeap.mk [⟨"a", 5, 1⟩] 2)
          (TreatedLog.mk ([] : List Patient) 0) 7)).treated_log =
        (TriageSystem.mk (MinHeap.mk [⟨"a", 5, 1⟩] 2)
          (TreatedLog.mk ([] : List Patient) 0) 7).treated_log ∧
      (treat_next_patient (TriageSystem.mk (MinHeap.mk [⟨"a", 5, 1⟩] 2)
          (TreatedLog.mk ([] : List Patient) 0) 7)).waiting_list =
        (extract_min (TriageSystem.mk (MinHeap.mk [⟨"a", 5, 1⟩] 2)
          (TreatedLog.mk ([] : List Patient) 0) 7).waiting_list).2 ∧
      (treat_next_patient (TriageSystem.mk (MinHeap.mk [⟨"a", 5, 1⟩] 2)
          (TreatedLog.mk ([] : List Patient) 0) 7)).waiting_list.patients.length =
        (TriageSystem.mk (MinHeap.mk [⟨"a", 5, 1⟩] 2)
          (TreatedLog.mk ([] : List Patient) 0) 7).waiting_list.patients.length - 1 ∧
      ((extract_min (TriageSystem.mk (MinHeap.mk [⟨"a", 5, 1⟩] 2)
            (TreatedLog.mk ([] : List Patient) 0) 7).waiting_list).1 ::
          (treat_next_patient (TriageSystem.mk (MinHeap.mk [⟨"a", 5, 1⟩] 2)
            (TreatedLog.mk ([] : List Patient) 0) 7)).waiting_list.patients).Perm
        (TriageSystem.mk (MinHeap.mk [⟨"a", 5, 1⟩] 2)
          (TreatedLog.mk ([] : List Patient) 0) 7).waiting_list.patients ∧
      (∀ p ∈ (TriageSystem.mk (MinHeap.mk [⟨"a", 5, 1⟩] 2)
          (TreatedLog.mk ([] : List Patient) 0) 7).waiting_list.patients,
        (extract_min (TriageSystem.mk (MinHeap.mk [⟨"a", 5, 1⟩] 2)
          (TreatedLog.mk ([] : List Patient) 0) 7).waiting_list).1.priority_level ≤
          p.priority_level) ∧
      (treat_next_patient (TriageSystem.mk (MinHeap.mk [⟨"a", 5, 1⟩] 2)
          (TreatedLog.mk ([] : List Patient) 0) 7)).next_patient_id =
        (TriageSystem.mk (MinHeap.mk [⟨"a", 5, 1⟩] 2)
          (TreatedLog.mk ([] : List Patient) 0) 7).next_patient_id) :=
  ⟨⟨by decide, by decide, by decide⟩,
    c7_service_not_rolled_back_on_full_log _ (by decide) (by decide) (by decide)⟩

/-- C8: When the waiting list is empty, `treat_next_patient` performs no state
change whatsoever: the whole system is returned unchanged — in particular the
heap size stays 0, the log contents and length are unchanged, and the
identifier counter is unchanged. -/
theorem c8_serve_on_empty_noop (sys : TriageSystem)
    (h : sys.waiting_list.patients.length = 0) :
    treat_next_patient sys = sys ∧
    (treat_next_patient sys).waiting_list.patients.length = 0 ∧
    (treat_next_patient sys).treated_log.patients = sys.treated_log.patients ∧
    (treat_next_patient sys).next_patient_id = sys.next_patient_id := by
  have hT := treat_next_patient_empty sys h
  rw [hT]
  exact ⟨rfl, h, rfl, rfl⟩

theorem c8_witness :
    (create_triage_system 5).waiting_list.patients.length = 0 ∧
    (treat_next_patient (create_triage_system 5) = create_triage_system 5 ∧
      (treat_next_patient (create_triage_system 5)).waiting_list.patients.length = 0 ∧
      (treat_next_patient (create_triage_system 5)).treated_log.patients =
        (create_triage_system 5).treated_log.patients ∧
      (treat_next_patient (create_triage_system 5)).next_patient_id =
        (create_triage_system 5).next_patient_id) :=
  ⟨rfl, c8_serve_on_empty_noop _ rfl⟩

/-- C9: The treated log is append-only: each operation grows it by at most one
entry appended at the end (never removing or reordering existing entries),
admissions never modify it, and after any run the log is exactly the initial
log followed by the chronological list of records that were served while the
log had room. -/
theorem c9_log_append_only_chronological :
    (∀ (sys : TriageSystem) (op : SysOp),
      (sysStep sys op).treated_log.patients = sys.treated_log.patients ∨
      ∃ p : Patient,
        (sysStep sys op).treated_log.patients = sys.treated_log.patients ++ [p]) ∧
    (∀ (sys : TriageSystem) (n : String) (pr : Int),
      (add_patient sys n pr).treated_log = sys.treated_log) ∧
    (∀ (sys : TriageSystem) (ops : List SysOp),
      view_treated_log (runSys sys ops) =
        view_treated_log sys ++ loggedServed sys ops) :=
  ⟨sysStep_log_append_only, fun sys n pr => add_patient_log sys n pr,
    fun sys ops => runSys_log ops sys⟩

/-- C10: `extract_min` on a heap of size 0 leaves the heap state entirely
unchanged and returns the sentinel record with empty name, priority -1 and
identifier -1; this sentinel is equal to — hence observationally
indistinguishable from — any record whose fields have those values. -/
theorem c10_extract_min_empty_sentinel (heap : MinHeap)
    (hz : heap.patients.length = 0) :
    extract_min heap =
      ({ name := "", priority_level := -1, patient_id := -1 }, heap) ∧
    ∀ p : Patient, p.name = "" → p.priority_level = -1 → p.patient_id = -1 →
      (extract_min heap).1 = p := by
  refine ⟨extract_min_empty heap hz, ?_⟩
  intro p hn hp hid
  rw [extract_min_empty heap hz]
  cases p
  simp_all

theorem c10_witness :
    (create_heap 3).patients.length = 0 ∧
    (extract_min (create_heap 3) =
        ({ name := "", priority_level := -1, patient_id := -1 }, create_heap 3) ∧
      ∀ p : Patient, p.name = "" → p.priority_level = -1 → p.patient_id = -1 →
        (extract_min (create_heap 3)).1 = p) :=
  ⟨rfl, c10_extract_min_empty_sentinel (create_heap 3) rfl⟩
